import Mathlib

/-!
Shallow embedding of `src/odometry.py` (class `VisualOdometry`).

The two methods under verification are `getMovement` (recursive Monte-Carlo
template matching: per-trial displacement vectors, `np.unique`-based consensus,
recursive escalation of the trial count) and `getPatch` (random patch sampling).

Randomness and the external matcher (`cv2.matchTemplate` / `cv2.minMaxLoc`)
are modelled as oracles: a trial oracle supplies, for every round (keyed by its
trial count) and trial index, the matcher's best location `max_loc` and the
sampled patch origin `(x1, y1)`.  Everything downstream of those values is
translated from the source.
-/

namespace Odometry

/-- Displacement vectors: integer 2-tuples, as produced by
`np.array(max_loc) - np.array([y1, x1])` in `getMovement`. -/
abbrev V : Type := ℤ × ℤ

instance : BEq V := instBEqOfDecidableEq

instance : LawfulBEq V where
  eq_of_beq h := by simpa [BEq.beq] using h
  rfl := by simp [BEq.beq]

/-- `self.threshold = 0.4` (`__init__`). -/
def threshold : ℚ := 2 / 5

/-- `self.maxItertations = 50` (`__init__`, name kept from the source). -/
def maxItertations : ℕ := 50

/-- Lexicographic (row-major) order on vectors: the order in which
`np.unique(..., axis=0)` returns the unique rows. -/
def vecLe (a b : V) : Prop := a.1 < b.1 ∨ (a.1 = b.1 ∧ a.2 ≤ b.2)

/-- Strict lexicographic order on vectors. -/
def vecLt (a b : V) : Prop := a.1 < b.1 ∨ (a.1 = b.1 ∧ a.2 < b.2)

instance : DecidableRel vecLe := fun a b => by unfold vecLe; infer_instance

instance : DecidableRel vecLt := fun a b => by unfold vecLt; infer_instance

instance : IsTotal V vecLe := ⟨by intro a b; unfold vecLe; omega⟩

instance : IsTrans V vecLe := ⟨by intro a b c; unfold vecLe; omega⟩

instance : IsAntisymm V vecLe :=
  ⟨by intro a b h h'; rw [Prod.ext_iff]; unfold vecLe at h h'; omega⟩

/-- `np.unique(diffs, axis=0, return_counts=True)`: the distinct rows of
`diffs` in ascending lexicographic order, each paired with its number of
occurrences in `diffs`. -/
def uniqueCounts (l : List V) : List (V × ℕ) :=
  (List.insertionSort vecLe l.dedup).map (fun v => (v, l.count v))

/-- `np.argmax(count)` applied to the `(element, count)` pairs: scan the list
keeping the current pair unless a strictly larger count appears, so the first
pair attaining the maximal count is selected. -/
def selectMode : V × ℕ → List (V × ℕ) → V × ℕ
  | b, [] => b
  | b, p :: rest => selectMode (if b.2 < p.2 then p else b) rest

/-- Lines 40-44 of `getMovement`: group the round's displacement vectors with
`np.unique`, pick `element[np.argmax(count)]` and `count[np.argmax(count)]/its`.
For an empty round (never reached from a positive trial count) the junk value
`((0,0), 0)` stands in for numpy's error on `argmax` of an empty array. -/
def estimateRound (diffs : List V) (its : ℕ) : V × ℚ :=
  match uniqueCounts diffs with
  | [] => ((0, 0), 0)
  | p :: ps =>
    let m := selectMode p ps
    (m.1, (m.2 : ℚ) / (its : ℚ))

/-- One Monte-Carlo trial's oracle data: the matcher's `max_loc` (from
`cv2.minMaxLoc`) and the patch origin `x1, y1` returned by `getPatch`. -/
structure Trial where
  maxLoc : ℤ × ℤ
  x1 : ℕ
  y1 : ℕ

/-- Line 37: `diff = np.array(max_loc) - np.array([y1, x1])`. -/
def diffOf (t : Trial) : V := (t.maxLoc.1 - (t.y1 : ℤ), t.maxLoc.2 - (t.x1 : ℤ))

/-- Lines 29-38: the list `diffs` built by the `for i in range(its)` loop,
with the oracle `tr` supplying each trial's matcher output and patch origin
(rounds are keyed by their trial count, which is distinct per round). -/
def roundDiffs (tr : ℕ → ℕ → Trial) (its : ℕ) : List V :=
  (List.range its).map (fun i => diffOf (tr its i))

/-- Lines 19-51, `getMovement`: run a round of `its` trials, aggregate, and if
`percent <= threshold` bump `its` by 4 and recurse while `its <= 50`; the
incremented count is returned when the ceiling check fails. -/
def getMovement (tr : ℕ → ℕ → Trial) (its : ℕ) : V × ℚ × ℕ :=
  if (estimateRound (roundDiffs tr its) its).2 ≤ threshold then
    if its + 4 ≤ maxItertations then
      getMovement tr (its + 4)
    else
      ((estimateRound (roundDiffs tr its) its).1,
        (estimateRound (roundDiffs tr its) its).2, its + 4)
  else
    ((estimateRound (roundDiffs tr its) its).1,
      (estimateRound (roundDiffs tr its) its).2, its)
termination_by maxItertations + 4 - its
decreasing_by simp only [maxItertations] at *; omega

/-- Fuel-indexed variant of `getMovement`, used to express round-count bounds:
`none` means the round budget `fuel` was exhausted before the controller
returned. -/
def getMovementFuel : ℕ → (ℕ → ℕ → Trial) → ℕ → Option (V × ℚ × ℕ)
  | 0, _, _ => none
  | fuel + 1, tr, its =>
    if (estimateRound (roundDiffs tr its) its).2 ≤ threshold then
      if its + 4 ≤ maxItertations then
        getMovementFuel fuel tr (its + 4)
      else
        some ((estimateRound (roundDiffs tr its) its).1,
          (estimateRound (roundDiffs tr its) its).2, its + 4)
    else
      some ((estimateRound (roundDiffs tr its) its).1,
        (estimateRound (roundDiffs tr its) its).2, its)

/-! ### Order lemmas for `vecLe` / `vecLt` -/

theorem vecLe_refl (a : V) : vecLe a a := Or.inr ⟨rfl, le_refl _⟩

theorem vecLe_of_vecLe_vecLt {a b c : V} (h : vecLe a b) (h' : vecLt b c) :
    vecLe a c := by
  unfold vecLe at *; unfold vecLt at h'; omega

theorem vecLt_of_vecLe_ne {a b : V} (h : vecLe a b) (hne : a ≠ b) : vecLt a b := by
  rw [Ne, Prod.ext_iff] at hne
  unfold vecLe at h; unfold vecLt; omega

/-! ### `selectMode` (= `np.argmax` over the counts) -/

theorem selectMode_mem : ∀ (l : List (V × ℕ)) (b : V × ℕ), selectMode b l ∈ b :: l
  | [], b => List.mem_cons_self b []
  | p :: rest, b => by
    simp only [selectMode]
    have h := selectMode_mem rest (if b.2 < p.2 then p else b)
    rcases List.mem_cons.1 h with h1 | h1
    · rw [h1]; split
      · exact List.mem_cons_of_mem _ (List.mem_cons_self _ _)
      · exact List.mem_cons_self _ _
    · exact List.mem_cons_of_mem _ (List.mem_cons_of_mem _ h1)

theorem count_le_selectMode :
    ∀ (l : List (V × ℕ)) (b : V × ℕ), ∀ q ∈ b :: l, q.2 ≤ (selectMode b l).2
  | [], b, q, hq => by
    rcases List.mem_cons.1 hq with h | h
    · rw [h]; exact le_refl _
    · cases h
  | p :: rest, b, q, hq => by
    simp only [selectMode]
    have hrec := count_le_selectMode rest (if b.2 < p.2 then p else b)
    have hhead : (if b.2 < p.2 then p else b).2 ≤
        (selectMode (if b.2 < p.2 then p else b) rest).2 :=
      hrec _ (List.mem_cons_self _ _)
    have h1 : b.2 ≤ (if b.2 < p.2 then p else b).2 := by split <;> omega
    have h2 : p.2 ≤ (if b.2 < p.2 then p else b).2 := by
      split
      · exact le_refl _
      · omega
    rcases List.mem_cons.1 hq with h | h
    · rw [h]; exact le_trans h1 hhead
    · rcases List.mem_cons.1 h with h' | h'
      · rw [h']; exact le_trans h2 hhead
      · exact hrec q (List.mem_cons_of_mem _ h')

theorem selectMode_lex :
    ∀ (l : List (V × ℕ)) (b : V × ℕ),
      (b :: l).Pairwise (fun p q => vecLt p.1 q.1) →
      ∀ q ∈ b :: l, q.2 = (selectMode b l).2 → vecLe (selectMode b l).1 q.1
  | [], b, _, q, hq, _ => by
    rcases List.mem_cons.1 hq with h | h
    · rw [h]; exact vecLe_refl _
    · cases h
  | p :: rest, b, hs, q, hq, hcnt => by
    simp only [selectMode] at hcnt ⊢
    obtain ⟨hb, hs'⟩ := List.pairwise_cons.1 hs
    obtain ⟨hp, hrest⟩ := List.pairwise_cons.1 hs'
    have hs'' : ((if b.2 < p.2 then p else b) :: rest).Pairwise
        (fun p q => vecLt p.1 q.1) := by
      refine List.pairwise_cons.2 ⟨?_, hrest⟩
      intro x hx
      split
      · exact hp x hx
      · exact hb x (List.mem_cons_of_mem _ hx)
    by_cases hbp : b.2 < p.2
    · simp only [if_pos hbp] at hs'' hcnt ⊢
      rcases List.mem_cons.1 hq with h | h
      · -- q = b is impossible: the running maximum is already ≥ p.2 > b.2
        exfalso
        have hge : p.2 ≤ (selectMode p rest).2 :=
          count_le_selectMode rest p p (List.mem_cons_self _ _)
        rw [h] at hcnt
        omega
      · exact selectMode_lex rest p hs'' q h hcnt
    · simp only [if_neg hbp] at hs'' hcnt ⊢
      rcases List.mem_cons.1 hq with h | h
      · rw [h] at hcnt ⊢
        exact selectMode_lex rest b hs'' b (List.mem_cons_self _ _) hcnt
      · rcases List.mem_cons.1 h with h' | h'
        · -- q = p, tied with the selected count, which also equals b.2
          have hble : b.2 ≤ (selectMode b rest).2 :=
            count_le_selectMode rest b b (List.mem_cons_self _ _)
          have hbeq : b.2 = (selectMode b rest).2 := by
            rw [h'] at hcnt; omega
          have h1 : vecLe (selectMode b rest).1 b.1 :=
            selectMode_lex rest b hs'' b (List.mem_cons_self _ _) hbeq
          have h2 : vecLt b.1 q.1 := by
            rw [h']; exact hb p (List.mem_cons_self _ _)
          exact vecLe_of_vecLe_vecLt h1 h2
        · exact selectMode_lex rest b hs'' q (List.mem_cons_of_mem _ h') hcnt

/-! ### `uniqueCounts` (= `np.unique(..., axis=0, return_counts=True)`) -/

theorem mem_uniqueCounts {l : List V} {v : V} (h : v ∈ l) :
    (v, l.count v) ∈ uniqueCounts l := by
  unfold uniqueCounts
  exact List.mem_map_of_mem _
    ((List.perm_insertionSort vecLe l.dedup).mem_iff.2 (List.mem_dedup.2 h))

theorem uniqueCounts_shape {l : List V} {p : V × ℕ} (hp : p ∈ uniqueCounts l) :
    p.1 ∈ l ∧ p.2 = l.count p.1 := by
  unfold uniqueCounts at hp
  obtain ⟨v, hv, rfl⟩ := List.mem_map.1 hp
  exact ⟨List.mem_dedup.1 ((List.perm_insertionSort vecLe l.dedup).mem_iff.1 hv),
    rfl⟩

theorem uniqueCounts_sortedKeys (l : List V) :
    (uniqueCounts l).Pairwise (fun p q => vecLt p.1 q.1) := by
  have hsort : (List.insertionSort vecLe l.dedup).Sorted vecLe :=
    List.sorted_insertionSort vecLe l.dedup
  have hnd : (List.insertionSort vecLe l.dedup).Nodup :=
    (List.perm_insertionSort vecLe l.dedup).nodup_iff.2 l.nodup_dedup
  have hlt : (List.insertionSort vecLe l.dedup).Pairwise vecLt :=
    List.Pairwise.imp₂ (fun _ _ hle hne => vecLt_of_vecLe_ne hle hne) hsort hnd
  exact hlt.map _ (fun _ _ h => h)

theorem uniqueCounts_ne_nil {l : List V} (h : l ≠ []) : uniqueCounts l ≠ [] := by
  obtain ⟨x, xs, rfl⟩ := List.exists_cons_of_ne_nil h
  intro hnil
  have := mem_uniqueCounts (List.mem_cons_self x xs)
  rw [hnil] at this
  cases this

/-! ### `estimateRound` (lines 40-44 of `getMovement`) -/

/-- The selected estimate of a non-empty round: the mode vector occurs in the
round's diffs, the confidence is its occurrence count divided by `its`, the
mode's count is maximal, and among tied maximal counts the mode is the
lexicographically least vector (because `np.unique` emits groups in ascending
lexicographic order and `np.argmax` keeps the first maximum). -/
theorem estimateRound_spec {diffs : List V} (its : ℕ) (h : diffs ≠ []) :
    (estimateRound diffs its).1 ∈ diffs ∧
    (estimateRound diffs its).2 =
      (diffs.count (estimateRound diffs its).1 : ℚ) / (its : ℚ) ∧
    (∀ v ∈ diffs, diffs.count v ≤ diffs.count (estimateRound diffs its).1) ∧
    (∀ v ∈ diffs, diffs.count v = diffs.count (estimateRound diffs its).1 →
      vecLe (estimateRound diffs its).1 v) := by
  cases hu : uniqueCounts diffs with
  | nil => exact absurd hu (uniqueCounts_ne_nil h)
  | cons p ps =>
    have hmem : selectMode p ps ∈ uniqueCounts diffs := by
      rw [hu]; exact selectMode_mem ps p
    obtain ⟨hm1, hm2⟩ := uniqueCounts_shape hmem
    have hval : estimateRound diffs its =
        ((selectMode p ps).1, ((selectMode p ps).2 : ℚ) / (its : ℚ)) := by
      unfold estimateRound
      rw [hu]
    have h1 : (estimateRound diffs its).1 = (selectMode p ps).1 := by rw [hval]
    have h2 : (estimateRound diffs its).2 =
        ((selectMode p ps).2 : ℚ) / (its : ℚ) := by rw [hval]
    rw [h1, h2]
    refine ⟨hm1, by rw [hm2], ?_, ?_⟩
    · intro v hv
      have hvmem : (v, diffs.count v) ∈ p :: ps := by
        rw [← hu]; exact mem_uniqueCounts hv
      have := count_le_selectMode ps p (v, diffs.count v) hvmem
      omega
    · intro v hv hcv
      have hvmem : (v, diffs.count v) ∈ p :: ps := by
        rw [← hu]; exact mem_uniqueCounts hv
      have hsorted : (p :: ps).Pairwise (fun p q => vecLt p.1 q.1) := by
        rw [← hu]; exact uniqueCounts_sortedKeys diffs
      exact selectMode_lex ps p hsorted (v, diffs.count v) hvmem (by omega)

/-- `np.unique` sorts the groups, so the grouping depends only on the multiset
of displacement vectors, not on trial order. -/
theorem uniqueCounts_perm {l₁ l₂ : List V} (h : l₁.Perm l₂) :
    uniqueCounts l₁ = uniqueCounts l₂ := by
  unfold uniqueCounts
  have hsorteq : List.insertionSort vecLe l₁.dedup =
      List.insertionSort vecLe l₂.dedup := by
    refine List.eq_of_perm_of_sorted ?_ (List.sorted_insertionSort _ _)
      (List.sorted_insertionSort _ _)
    exact ((List.perm_insertionSort vecLe l₁.dedup).trans h.dedup).trans
      (List.perm_insertionSort vecLe l₂.dedup).symm
  have hcnt : (fun v : V => (v, l₁.count v)) = fun v : V => (v, l₂.count v) := by
    funext v
    rw [h.count_eq]
  rw [hsorteq, hcnt]

/-- If no later count strictly exceeds the running maximum's, the scan keeps it. -/
theorem selectMode_of_le {b : V × ℕ} :
    ∀ {l : List (V × ℕ)}, (∀ p ∈ l, p.2 ≤ b.2) → selectMode b l = b
  | [], _ => rfl
  | p :: rest, h => by
    simp only [selectMode]
    rw [if_neg (by have := h p (List.mem_cons_self _ _); omega)]
    exact selectMode_of_le (fun q hq => h q (List.mem_cons_of_mem _ hq))

/-- A round whose diffs are pairwise distinct and already lexicographically
sorted selects the head with confidence `1/its`. -/
theorem estimateRound_nodup_sorted {x : V} {xs : List V}
    (hnd : (x :: xs).Nodup) (hs : (x :: xs).Sorted vecLe) (its : ℕ) :
    estimateRound (x :: xs) its = (x, 1 / (its : ℚ)) := by
  have hsort : List.insertionSort vecLe ((x :: xs).dedup) = x :: xs := by
    rw [List.dedup_eq_self.2 hnd]
    exact hs.insertionSort_eq
  have hcounts : ∀ v ∈ x :: xs, (x :: xs).count v = 1 :=
    fun v hv => List.count_eq_one_of_mem hnd hv
  have hmapeq : (x :: xs).map (fun v => (v, (x :: xs).count v)) =
      (x :: xs).map (fun v => (v, (1 : ℕ))) :=
    List.map_congr_left (fun a ha => by rw [hcounts a ha])
  have huc : uniqueCounts (x :: xs) = (x, 1) :: xs.map (fun v => (v, (1 : ℕ))) := by
    unfold uniqueCounts
    rw [hsort, hmapeq, List.map_cons]
  have hsel : selectMode (x, 1) (xs.map (fun v => (v, (1 : ℕ)))) = (x, 1) := by
    refine selectMode_of_le ?_
    intro p hp
    obtain ⟨v, _, rfl⟩ := List.mem_map.1 hp
    exact le_refl _
  have hval : estimateRound (x :: xs) its =
      ((selectMode (x, 1) (xs.map (fun v => (v, (1 : ℕ))))).1,
        ((selectMode (x, 1) (xs.map (fun v => (v, (1 : ℕ))))).2 : ℚ) / (its : ℚ)) := by
    unfold estimateRound
    rw [huc]
  rw [hval, hsel]
  norm_num

/-! ### Unfolding lemmas for the recursive controller (lines 46-51) -/

/-- `percent > threshold`: return this round's estimate and trial count. -/
theorem getMovement_done {tr : ℕ → ℕ → Trial} {its : ℕ}
    (h1 : ¬ (estimateRound (roundDiffs tr its) its).2 ≤ threshold) :
    getMovement tr its =
      ((estimateRound (roundDiffs tr its) its).1,
        (estimateRound (roundDiffs tr its) its).2, its) := by
  rw [getMovement, if_neg h1]

/-- `percent ≤ threshold` but the bumped count passes the ceiling check:
recurse at `its + 4`. -/
theorem getMovement_step {tr : ℕ → ℕ → Trial} {its : ℕ}
    (h1 : (estimateRound (roundDiffs tr its) its).2 ≤ threshold)
    (h2 : its + 4 ≤ maxItertations) :
    getMovement tr its = getMovement tr (its + 4) := by
  rw [getMovement, if_pos h1, if_pos h2]

/-- `percent ≤ threshold` and the bumped count fails the ceiling check: the
round's estimate is returned, but with the already incremented trial count. -/
theorem getMovement_ceiling {tr : ℕ → ℕ → Trial} {its : ℕ}
    (h1 : (estimateRound (roundDiffs tr its) its).2 ≤ threshold)
    (h2 : ¬ its + 4 ≤ maxItertations) :
    getMovement tr its =
      ((estimateRound (roundDiffs tr its) its).1,
        (estimateRound (roundDiffs tr its) its).2, its + 4) := by
  rw [getMovement, if_pos h1, if_neg h2]

/-! ### A concrete trial oracle whose rounds never agree -/

/-- Oracle under which trial `i` of every round reports `max_loc = (i, 0)` from
patch origin `(0, 0)`: all displacement vectors of a round are distinct, so the
mode never collects more than one vote. -/
def distinctTrials : ℕ → ℕ → Trial := fun _ i => ⟨((i : ℤ), 0), 0, 0⟩

theorem roundDiffs_distinctTrials (its : ℕ) :
    roundDiffs distinctTrials its =
      (List.range its).map (fun i : ℕ => (((i : ℤ), 0) : V)) := by
  unfold roundDiffs
  refine List.map_congr_left ?_
  intro i _
  unfold distinctTrials diffOf
  simp

theorem estimateRound_distinctTrials (n its : ℕ) :
    estimateRound (roundDiffs distinctTrials (n + 1)) its =
      ((0, 0), 1 / (its : ℚ)) := by
  have hinj : Function.Injective (fun i : ℕ => (((i : ℤ), 0) : V)) := by
    intro a b hab
    simpa using hab
  have hnd : ((List.range (n + 1)).map (fun i : ℕ => (((i : ℤ), 0) : V))).Nodup :=
    (List.nodup_range (n + 1)).map hinj
  have hsorted : ((List.range (n + 1)).map (fun i : ℕ => (((i : ℤ), 0) : V))).Sorted
      vecLe :=
    (List.pairwise_lt_range (n + 1)).map _
      (fun a b hab => Or.inl (show ((a : ℤ)) < ((b : ℤ)) by exact_mod_cast hab))
  rw [roundDiffs_distinctTrials]
  rw [List.range_succ_eq_map, List.map_cons] at hnd hsorted ⊢
  rw [estimateRound_nodup_sorted hnd hsorted its]
  norm_num

theorem distinctTrials_conf_le {n : ℕ} (h : 4 ≤ n) :
    (estimateRound (roundDiffs distinctTrials n) n).2 ≤ threshold := by
  obtain ⟨m, rfl⟩ : ∃ m, n = m + 1 := ⟨n - 1, by omega⟩
  rw [estimateRound_distinctTrials]
  unfold threshold
  have hc : (4 : ℚ) ≤ ((m + 1 : ℕ) : ℚ) := by exact_mod_cast h
  rw [div_le_div_iff₀ (by positivity) (by norm_num)]
  linarith

/-- If every round from 4 trials up stays at or below the threshold, the
controller walks 4, 8, ..., 48 and then returns the 48-trial round's estimate
with the bumped count 52. -/
theorem getMovement_chain {tr : ℕ → ℕ → Trial}
    (h : ∀ n, 4 ≤ n → (estimateRound (roundDiffs tr n) n).2 ≤ threshold) :
    getMovement tr 4 =
      ((estimateRound (roundDiffs tr 48) 48).1,
        (estimateRound (roundDiffs tr 48) 48).2, 52) := by
  have step : ∀ its : ℕ, 4 ≤ its → its + 4 ≤ maxItertations →
      getMovement tr its = getMovement tr (its + 4) :=
    fun its h1 h2 => getMovement_step (h its h1) h2
  calc getMovement tr 4
      = getMovement tr 8 := by simpa using step 4 (by norm_num) (by decide)
    _ = getMovement tr 12 := by simpa using step 8 (by norm_num) (by decide)
    _ = getMovement tr 16 := by simpa using step 12 (by norm_num) (by decide)
    _ = getMovement tr 20 := by simpa using step 16 (by norm_num) (by decide)
    _ = getMovement tr 24 := by simpa using step 20 (by norm_num) (by decide)
    _ = getMovement tr 28 := by simpa using step 24 (by norm_num) (by decide)
    _ = getMovement tr 32 := by simpa using step 28 (by norm_num) (by decide)
    _ = getMovement tr 36 := by simpa using step 32 (by norm_num) (by decide)
    _ = getMovement tr 40 := by simpa using step 36 (by norm_num) (by decide)
    _ = getMovement tr 44 := by simpa using step 40 (by norm_num) (by decide)
    _ = getMovement tr 48 := by simpa using step 44 (by norm_num) (by decide)
    _ = ((estimateRound (roundDiffs tr 48) 48).1,
          (estimateRound (roundDiffs tr 48) 48).2, 52) := by
        rw [getMovement_ceiling (h 48 (by norm_num)) (by decide)]

theorem getMovement_distinctTrials_48 :
    getMovement distinctTrials 48 = (((0 : ℤ), (0 : ℤ)), 1 / (48 : ℚ), 52) := by
  have h48 := estimateRound_distinctTrials 47 48
  norm_num at h48
  rw [getMovement_ceiling (distinctTrials_conf_le (by norm_num)) (by decide), h48]
  norm_num

theorem getMovement_distinctTrials_4 :
    getMovement distinctTrials 4 = (((0 : ℤ), (0 : ℤ)), 1 / (48 : ℚ), 52) := by
  have h48 := estimateRound_distinctTrials 47 48
  norm_num at h48
  rw [getMovement_chain (fun n hn => distinctTrials_conf_le hn), h48]
  norm_num

/-! ### Fuel sufficiency and invariants of the recursion -/

/-- With `(maxItertations - its)/4` extra rounds of budget, the fuelled
controller finishes and agrees with the recursive one. -/
theorem getMovementFuel_sufficient (tr : ℕ → ℕ → Trial) :
    ∀ fuel its : ℕ, maxItertations - its ≤ 4 * fuel →
      getMovementFuel (fuel + 1) tr its = some (getMovement tr its) := by
  intro fuel
  induction fuel with
  | zero =>
    intro its h
    have hc : ¬ its + 4 ≤ maxItertations := by
      simp only [maxItertations] at *; omega
    rw [getMovementFuel]
    by_cases h1 : (estimateRound (roundDiffs tr its) its).2 ≤ threshold
    · rw [if_pos h1, if_neg hc, getMovement_ceiling h1 hc]
    · rw [if_neg h1, getMovement_done h1]
  | succ f ih =>
    intro its h
    rw [getMovementFuel]
    by_cases h1 : (estimateRound (roundDiffs tr its) its).2 ≤ threshold
    · by_cases h2 : its + 4 ≤ maxItertations
      · rw [if_pos h1, if_pos h2, getMovement_step h1 h2]
        exact ih (its + 4) (by simp only [maxItertations] at *; omega)
      · rw [if_pos h1, if_neg h2, getMovement_ceiling h1 h2]
    · rw [if_neg h1, getMovement_done h1]

/-- Invariant of the recursion started at a positive multiple of 4 that is at
most the ceiling: the returned trial count is a multiple of 4, at least the
starting count, and at most 52. -/
theorem getMovement_trials_invariant (tr : ℕ → ℕ → Trial) :
    ∀ fuel its : ℕ, maxItertations - its ≤ 4 * fuel → 4 ≤ its →
      its ≤ maxItertations → 4 ∣ its →
      4 ∣ (getMovement tr its).2.2 ∧ its ≤ (getMovement tr its).2.2 ∧
        (getMovement tr its).2.2 ≤ 52 := by
  intro fuel
  induction fuel with
  | zero =>
    intro its hm h4 hle hdvd
    exfalso
    simp only [maxItertations] at hm hle
    omega
  | succ f ih =>
    intro its hm h4 hle hdvd
    by_cases h1 : (estimateRound (roundDiffs tr its) its).2 ≤ threshold
    · by_cases h2 : its + 4 ≤ maxItertations
      · rw [getMovement_step h1 h2]
        have hrec := ih (its + 4) (by simp only [maxItertations] at *; omega)
          (by omega) h2 (by omega)
        exact ⟨hrec.1, by omega, hrec.2.2⟩
      · rw [getMovement_ceiling h1 h2]
        dsimp only
        refine ⟨by omega, by omega, ?_⟩
        simp only [maxItertations] at h2 hle
        omega
    · rw [getMovement_done h1]
      dsimp only
      refine ⟨hdvd, le_refl _, ?_⟩
      simp only [maxItertations] at hle
      omega

/-- A non-empty round never collects zero votes for the mode: the confidence is
at least one vote out of `its`. -/
theorem roundDiffs_ne_nil {tr : ℕ → ℕ → Trial} {its : ℕ} (h : 1 ≤ its) :
    roundDiffs tr its ≠ [] := by
  unfold roundDiffs
  simp only [Ne, List.map_eq_nil_iff, List.range_eq_nil]
  omega

theorem round_conf_lower {tr : ℕ → ℕ → Trial} {its : ℕ} (h : 1 ≤ its) :
    (1 : ℚ) / (its : ℚ) ≤ (estimateRound (roundDiffs tr its) its).2 := by
  obtain ⟨hmem, hconf, -, -⟩ := estimateRound_spec its (roundDiffs_ne_nil h)
  rw [hconf]
  have hcpos : 1 ≤
      (roundDiffs tr its).count (estimateRound (roundDiffs tr its) its).1 :=
    List.count_pos_iff.2 hmem
  have hcast : (1 : ℚ) ≤
      ((roundDiffs tr its).count (estimateRound (roundDiffs tr its) its).1 : ℚ) := by
    exact_mod_cast hcpos
  have hits : (0 : ℚ) < (its : ℚ) := by exact_mod_cast h
  gcongr

/-- The confidence returned by the controller is at least one vote out of the
returned trial count (which is at least the terminal round's trial count). -/
theorem getMovement_conf_lower (tr : ℕ → ℕ → Trial) :
    ∀ fuel its : ℕ, maxItertations - its ≤ 4 * fuel → 1 ≤ its →
      (1 : ℚ) / ((getMovement tr its).2.2 : ℚ) ≤ (getMovement tr its).2.1 ∧
        1 ≤ (getMovement tr its).2.2 := by
  intro fuel
  induction fuel with
  | zero =>
    intro its hm h1
    have hc : ¬ its + 4 ≤ maxItertations := by
      simp only [maxItertations] at *; omega
    by_cases hth : (estimateRound (roundDiffs tr its) its).2 ≤ threshold
    · rw [getMovement_ceiling hth hc]
      dsimp only
      refine ⟨?_, by omega⟩
      have hstep : (1 : ℚ) / ((its + 4 : ℕ) : ℚ) ≤ (1 : ℚ) / (its : ℚ) := by
        have h0 : (0 : ℚ) < (its : ℚ) := by exact_mod_cast h1
        have hle : ((its : ℕ) : ℚ) ≤ ((its + 4 : ℕ) : ℚ) := by
          push_cast; linarith
        gcongr
      exact le_trans hstep (round_conf_lower h1)
    · rw [getMovement_done hth]
      dsimp only
      exact ⟨round_conf_lower h1, h1⟩
  | succ f ih =>
    intro its hm h1
    by_cases hth : (estimateRound (roundDiffs tr its) its).2 ≤ threshold
    · by_cases h2 : its + 4 ≤ maxItertations
      · rw [getMovement_step hth h2]
        exact ih (its + 4) (by simp only [maxItertations] at *; omega) (by omega)
      · rw [getMovement_ceiling hth h2]
        dsimp only
        refine ⟨?_, by omega⟩
        have hstep : (1 : ℚ) / ((its + 4 : ℕ) : ℚ) ≤ (1 : ℚ) / (its : ℚ) := by
          have h0 : (0 : ℚ) < (its : ℚ) := by exact_mod_cast h1
          have hle : ((its : ℕ) : ℚ) ≤ ((its + 4 : ℕ) : ℚ) := by
            push_cast; linarith
          gcongr
        exact le_trans hstep (round_conf_lower h1)
    · rw [getMovement_done hth]
      dsimp only
      exact ⟨round_conf_lower h1, h1⟩

/-! ### `getPatch` (lines 53-69) -/

/-- The four values drawn by the calls to `np.random.randint` in `getPatch`. -/
structure PatchSpec where
  x1 : ℕ
  x2 : ℕ
  y1 : ℕ
  y2 : ℕ

/-- `np.random.randint(lo, hi)` draws from `[lo, hi)`; it raises `ValueError`
unless the range is non-empty, i.e. unless `lo < hi`. -/
def randintOk (lo hi : ℕ) : Prop := lo < hi

instance (lo hi : ℕ) : Decidable (randintOk lo hi) := by
  unfold randintOk; infer_instance

/-- `v` is a possible outcome of `np.random.randint(lo, hi)`. -/
def inRandint (lo hi v : ℕ) : Prop := lo ≤ v ∧ v < hi

instance (lo hi v : ℕ) : Decidable (inRandint lo hi v) := by
  unfold inRandint; infer_instance

/-- Lines 61-65: `x1 = randint(0, w-5)`, `x2 = randint(x1+1, w)`,
`y1 = randint(0, h-5)`, `y2 = randint(y1+1, h)`, on a frame with
`w = frame.shape[0]` and `h = frame.shape[1]`. -/
def validDraw (w h : ℕ) (d : PatchSpec) : Prop :=
  inRandint 0 (w - 5) d.x1 ∧ inRandint (d.x1 + 1) w d.x2 ∧
  inRandint 0 (h - 5) d.y1 ∧ inRandint (d.y1 + 1) h d.y2

instance (w h : ℕ) (d : PatchSpec) : Decidable (validDraw w h d) := by
  unfold validDraw; infer_instance

/-- Lines 67-69: `template = frame[x1:x2, y1:y2]/255; return template, x1, y1`.
The crop is represented by its entries relative to the origin `(x1, y1)`. -/
def getPatch (frame : ℕ → ℕ → ℚ) (d : PatchSpec) : (ℕ → ℕ → ℚ) × ℕ × ℕ :=
  ((fun i j => frame (d.x1 + i) (d.y1 + j) / 255), d.x1, d.y1)

/-- The displacement the spec prescribes for one trial:
`bestLoc − (y1, x1)`, the origin subtracted in `(y1, x1)` order. -/
def specDisplacement (bestLoc origin : ℤ × ℤ) : V := bestLoc - origin

/-! ### Claim theorems -/

/-- C1, counterexample: under the all-distinct oracle every round's confidence
is `1/its ≤ 0.4`, so the default call walks to the 48-trial round and returns
the incremented count 52, which exceeds `maxItertations = 50`. The claim that
the returned trial count never exceeds 50 is false. -/
theorem claim1_counterexample :
    ¬ (getMovement distinctTrials 4).2.2 ≤ maxItertations := by
  rw [getMovement_distinctTrials_4]
  decide

/-- C1 (amended): for the default configuration the returned trial count is a
multiple of 4 lying in `[initialTrials, maxTrials + trialIncrement] = [4, 52]`;
the original interval `[4, 50]` is exceeded exactly when the ceiling branch
returns the already incremented count 52. -/
theorem claim1_trials_membership (tr : ℕ → ℕ → Trial) :
    4 ∣ (getMovement tr 4).2.2 ∧ 4 ≤ (getMovement tr 4).2.2 ∧
      (getMovement tr 4).2.2 ≤ 52 := by
  have h := getMovement_trials_invariant tr 12 4 (by decide) (by decide)
    (by decide) (by decide)
  exact ⟨h.1, le_trans (by norm_num) h.2.1, h.2.2⟩

/-- C2: in every round with `its ≥ 1` trials, the confidence equals the number
of trials whose displacement vector equals the selected mode divided by the
round's trial count, and it lies in `[0, 1]`. -/
theorem claim2_round_confidence (tr : ℕ → ℕ → Trial) (its : ℕ) (h : 1 ≤ its) :
    (estimateRound (roundDiffs tr its) its).2 =
      ((roundDiffs tr its).count (estimateRound (roundDiffs tr its) its).1 : ℚ) /
        (its : ℚ) ∧
    0 ≤ (estimateRound (roundDiffs tr its) its).2 ∧
    (estimateRound (roundDiffs tr its) its).2 ≤ 1 := by
  obtain ⟨hmem, hconf, -, -⟩ := estimateRound_spec its (roundDiffs_ne_nil h)
  have hits : (0 : ℚ) < (its : ℚ) := by exact_mod_cast h
  refine ⟨hconf, ?_, ?_⟩
  · rw [hconf]
    positivity
  · rw [hconf]
    rw [div_le_one hits]
    have hlen : (roundDiffs tr its).count
        (estimateRound (roundDiffs tr its) its).1 ≤ its := by
      have := List.count_le_length (estimateRound (roundDiffs tr its) its).1
        (roundDiffs tr its)
      have hl : (roundDiffs tr its).length = its := by
        unfold roundDiffs
        simp
      omega
    exact_mod_cast hlen

/-- C2 witness: the round-confidence property instantiated at the all-distinct
oracle with a single trial. -/
theorem claim2_witness :
    (estimateRound (roundDiffs distinctTrials 1) 1).2 =
      ((roundDiffs distinctTrials 1).count
          (estimateRound (roundDiffs distinctTrials 1) 1).1 : ℚ) / ((1 : ℕ) : ℚ) ∧
    0 ≤ (estimateRound (roundDiffs distinctTrials 1) 1).2 ∧
    (estimateRound (roundDiffs distinctTrials 1) 1).2 ≤ 1 :=
  claim2_round_confidence distinctTrials 1 (by norm_num)

/-- C3, counterexample: at a 48-trial round whose confidence stays at or below
the threshold, the controller does not return the round's trial count 48 — it
returns the already incremented 52. -/
theorem claim3_counterexample : (getMovement distinctTrials 48).2.2 ≠ 48 := by
  rw [getMovement_distinctTrials_48]
  decide

/-- C3 (amended): the controller's transition rule. If confidence `> τ` the
round's triple is returned with the round's trial count; if confidence `≤ τ`
and `trials + 4 > M` the round's estimate is returned with the incremented
count `trials + 4` (not `trials`); otherwise the controller recurses at
`trials + 4`. -/
theorem claim3_transition (tr : ℕ → ℕ → Trial) (its : ℕ) (h : 1 ≤ its) :
    (threshold < (estimateRound (roundDiffs tr its) its).2 →
      getMovement tr its =
        ((estimateRound (roundDiffs tr its) its).1,
          (estimateRound (roundDiffs tr its) its).2, its)) ∧
    ((estimateRound (roundDiffs tr its) its).2 ≤ threshold →
      maxItertations < its + 4 →
      getMovement tr its =
        ((estimateRound (roundDiffs tr its) its).1,
          (estimateRound (roundDiffs tr its) its).2, its + 4)) ∧
    ((estimateRound (roundDiffs tr its) its).2 ≤ threshold →
      its + 4 ≤ maxItertations →
      getMovement tr its = getMovement tr (its + 4)) := by
  refine ⟨fun h1 => getMovement_done (not_le.2 h1),
    fun h1 h2 => getMovement_ceiling h1 (not_le.2 h2),
    fun h1 h2 => getMovement_step h1 h2⟩

/-- C3 witness: the ceiling transition applied at the 48-trial round of the
all-distinct oracle, yielding the incremented trial count 52. -/
theorem claim3_witness :
    getMovement distinctTrials 48 = (((0 : ℤ), (0 : ℤ)), 1 / (48 : ℚ), 52) := by
  have h48 := estimateRound_distinctTrials 47 48
  norm_num at h48
  have h := (claim3_transition distinctTrials 48 (by norm_num)).2.1
    (distinctTrials_conf_le (by norm_num)) (by decide)
  rw [h, h48]
  norm_num

/-- C4: the controller always terminates, and a budget of 13 rounds suffices:
the fuelled controller with fuel 13 finishes (returns `some`) and agrees with
the total recursive controller on the default call. -/
theorem claim4_terminates_in_13_rounds (tr : ℕ → ℕ → Trial) :
    getMovementFuel 13 tr 4 = some (getMovement tr 4) :=
  getMovementFuel_sufficient tr 12 4 (by decide)

/-- C5: every entry of a round's diff list equals the matcher's best location
minus the patch origin taken in the order `(y1, x1)`, exactly as the spec's
`bestLoc − (y1, x1)` prescribes. -/
theorem claim5_diff_convention (tr : ℕ → ℕ → Trial) (its i : ℕ) (h : i < its) :
    (roundDiffs tr its)[i]? =
      some (specDisplacement (tr its i).maxLoc
        (((tr its i).y1 : ℤ), ((tr its i).x1 : ℤ))) := by
  unfold roundDiffs
  rw [List.getElem?_map, List.getElem?_range h]
  unfold diffOf specDisplacement
  simp [Prod.ext_iff, Prod.fst_sub, Prod.snd_sub]

/-- C5 witness: the diff convention at trial 0 of a one-trial round of the
all-distinct oracle. -/
theorem claim5_witness :
    (roundDiffs distinctTrials 1)[0]? =
      some (specDisplacement (distinctTrials 1 0).maxLoc
        (((distinctTrials 1 0).y1 : ℤ), ((distinctTrials 1 0).x1 : ℤ))) :=
  claim5_diff_convention distinctTrials 1 0 (by norm_num)

/-- C6: on a frame with both dimensions above 5 (the 6×6 boundary included)
every `randint` range in `getPatch` is non-empty, so sampling cannot raise,
and every possible draw yields a non-degenerate patch (`x1 < x2 < w`,
`y1 < y2 < h`) lying fully inside the frame, returned as the crop divided by
255 together with the origin `(x1, y1)`; on a frame with a dimension at most 5
the very first `randint` range is empty, a precondition violation. -/
theorem claim6_getPatch_safety (w h : ℕ) (frame : ℕ → ℕ → ℚ) :
    (5 < w → 5 < h →
      randintOk 0 (w - 5) ∧ randintOk 0 (h - 5) ∧
      (∀ d : PatchSpec, validDraw w h d →
        randintOk (d.x1 + 1) w ∧ randintOk (d.y1 + 1) h ∧
        1 ≤ d.x2 - d.x1 ∧ 1 ≤ d.y2 - d.y1 ∧
        (∀ i, i < d.x2 - d.x1 → d.x1 + i < w) ∧
        (∀ j, j < d.y2 - d.y1 → d.y1 + j < h) ∧
        (getPatch frame d).2 = (d.x1, d.y1) ∧
        (∀ i j, (getPatch frame d).1 i j = frame (d.x1 + i) (d.y1 + j) / 255))) ∧
    (w ≤ 5 → ¬ randintOk 0 (w - 5)) ∧
    (h ≤ 5 → ¬ randintOk 0 (h - 5)) := by
  unfold randintOk validDraw inRandint
  refine ⟨fun hw hh => ⟨by omega, by omega, fun d hd => ?_⟩,
    fun hw => by omega, fun hh => by omega⟩
  obtain ⟨hx1, hx2, hy1, hy2⟩ := hd
  exact ⟨by omega, by omega, by omega, by omega, fun i hi => by omega,
    fun j hj => by omega, rfl, fun i j => rfl⟩

/-- C6 witness: on a 6×6 frame the first ranges are non-empty and the draw
`x1 = 0, x2 = 1, y1 = 0, y2 = 1` is accepted with a non-degenerate patch; on a
5×5 frame the first range is empty. -/
theorem claim6_witness :
    randintOk 0 (6 - 5) ∧
    1 ≤ (⟨0, 1, 0, 1⟩ : PatchSpec).x2 - (⟨0, 1, 0, 1⟩ : PatchSpec).x1 ∧
    ¬ randintOk 0 (5 - 5) :=
  ⟨((claim6_getPatch_safety 6 6 (fun _ _ => 0)).1 (by norm_num) (by norm_num)).1,
    (((claim6_getPatch_safety 6 6 (fun _ _ => 0)).1 (by norm_num)
        (by norm_num)).2.2 ⟨0, 1, 0, 1⟩ (by decide)).2.2.1,
    (claim6_getPatch_safety 5 6 (fun _ _ => 0)).2.1 (by norm_num)⟩

/-- C7, counterexample: in the round `[(5,5), (0,0)]` both vectors are tied
with one vote each; the first-encountered group is `(5,5)`, but the code's
mode is not `(5,5)` — `np.unique` returns the groups sorted and `argmax`
selects the lexicographically smallest tied group `(0,0)`. -/
theorem claim7_counterexample :
    List.count ((5 : ℤ), (5 : ℤ)) [((5 : ℤ), (5 : ℤ)), ((0 : ℤ), (0 : ℤ))] =
      List.count ((0 : ℤ), (0 : ℤ)) [((5 : ℤ), (5 : ℤ)), ((0 : ℤ), (0 : ℤ))] ∧
    (estimateRound [((5 : ℤ), (5 : ℤ)), ((0 : ℤ), (0 : ℤ))] 2).1 ≠
      ((5 : ℤ), (5 : ℤ)) := by
  constructor
  · decide
  · decide

/-- C7 (amended): the consensus step groups identical vectors and selects a
group of maximal count, but a tie among maximal counts is broken in favor of
the lexicographically smallest vector (the first group in `np.unique`'s sorted
output), not the first-encountered group in trial order. -/
theorem claim7_mode_lex (diffs : List V) (its : ℕ) (h : diffs ≠ []) :
    (estimateRound diffs its).1 ∈ diffs ∧
    (∀ v ∈ diffs, diffs.count v ≤ diffs.count (estimateRound diffs its).1) ∧
    (∀ v ∈ diffs, diffs.count v = diffs.count (estimateRound diffs its).1 →
      vecLe (estimateRound diffs its).1 v) := by
  obtain ⟨h1, -, h3, h4⟩ := estimateRound_spec its h
  exact ⟨h1, h3, h4⟩

/-- C7 witness: the amended mode rule instantiated on the tied round. -/
theorem claim7_witness :
    (estimateRound [((5 : ℤ), (5 : ℤ)), ((0 : ℤ), (0 : ℤ))] 2).1 ∈
      [((5 : ℤ), (5 : ℤ)), ((0 : ℤ), (0 : ℤ))] ∧
    (∀ v ∈ [((5 : ℤ), (5 : ℤ)), ((0 : ℤ), (0 : ℤ))],
      List.count v [((5 : ℤ), (5 : ℤ)), ((0 : ℤ), (0 : ℤ))] ≤
        List.count (estimateRound [((5 : ℤ), (5 : ℤ)), ((0 : ℤ), (0 : ℤ))] 2).1
          [((5 : ℤ), (5 : ℤ)), ((0 : ℤ), (0 : ℤ))]) ∧
    (∀ v ∈ [((5 : ℤ), (5 : ℤ)), ((0 : ℤ), (0 : ℤ))],
      List.count v [((5 : ℤ), (5 : ℤ)), ((0 : ℤ), (0 : ℤ))] =
        List.count (estimateRound [((5 : ℤ), (5 : ℤ)), ((0 : ℤ), (0 : ℤ))] 2).1
          [((5 : ℤ), (5 : ℤ)), ((0 : ℤ), (0 : ℤ))] →
      vecLe (estimateRound [((5 : ℤ), (5 : ℤ)), ((0 : ℤ), (0 : ℤ))] 2).1 v) :=
  claim7_mode_lex [((5 : ℤ), (5 : ℤ)), ((0 : ℤ), (0 : ℤ))] 2 (by decide)

/-- C8: aggregation is order-independent — two rounds whose diff lists are
permutations of each other produce the same mode and confidence. -/
theorem claim8_perm_invariant (l₁ l₂ : List V) (its : ℕ) (h : l₁.Perm l₂) :
    estimateRound l₁ its = estimateRound l₂ its := by
  unfold estimateRound
  rw [uniqueCounts_perm h]

/-- C8 witness: order-independence on a two-trial round. -/
theorem claim8_witness :
    estimateRound [((1 : ℤ), (2 : ℤ)), ((3 : ℤ), (4 : ℤ))] 2 =
      estimateRound [((3 : ℤ), (4 : ℤ)), ((1 : ℤ), (2 : ℤ))] 2 :=
  claim8_perm_invariant _ _ 2 (by decide)

/-- C9: when every round's confidence stays at or below the threshold, the
default call still returns the deepest (48-trial) round's estimate together
with that round's true sub-threshold confidence — no error and no substituted
failure value, only the bumped trial count 52. -/
theorem claim9_ceiling_returns_estimate (tr : ℕ → ℕ → Trial)
    (h : ∀ n, 4 ≤ n → (estimateRound (roundDiffs tr n) n).2 ≤ threshold) :
    getMovement tr 4 =
      ((estimateRound (roundDiffs tr 48) 48).1,
        (estimateRound (roundDiffs tr 48) 48).2, 52) :=
  getMovement_chain h

/-- C9 witness: under the all-distinct oracle all rounds stay at `1/its ≤ 0.4`
and the default call returns the 48-trial round's estimate `(0,0)` with its
true confidence `1/48`. -/
theorem claim9_witness :
    getMovement distinctTrials 4 = (((0 : ℤ), (0 : ℤ)), 1 / (48 : ℚ), 52) := by
  have h48 := estimateRound_distinctTrials 47 48
  norm_num at h48
  rw [claim9_ceiling_returns_estimate distinctTrials
    (fun n hn => distinctTrials_conf_le hn), h48]
  norm_num

/-- C10: for every call with a positive trial count the returned confidence is
strictly positive — it is at least one vote out of the returned trial count
(which is at least the terminal round's trial count) — so an exactly zero
confidence is impossible. -/
theorem claim10_confidence_positive (tr : ℕ → ℕ → Trial) (its : ℕ)
    (h : 1 ≤ its) :
    0 < (getMovement tr its).2.1 ∧
    (1 : ℚ) / ((getMovement tr its).2.2 : ℚ) ≤ (getMovement tr its).2.1 := by
  obtain ⟨hb, ht⟩ := getMovement_conf_lower tr maxItertations its
    (by simp only [maxItertations]; omega) h
  have htq : (0 : ℚ) < ((getMovement tr its).2.2 : ℚ) := by exact_mod_cast ht
  exact ⟨lt_of_lt_of_le (by positivity) hb, hb⟩

/-- C10 witness: strict positivity of the returned confidence on the default
call of the all-distinct oracle. -/
theorem claim10_witness :
    0 < (getMovement distinctTrials 4).2.1 ∧
    (1 : ℚ) / ((getMovement distinctTrials 4).2.2 : ℚ) ≤
      (getMovement distinctTrials 4).2.1 :=
  claim10_confidence_positive distinctTrials 4 (by norm_num)

end Odometry
